import Mathlib

/-!
Verification development for the shunting-yard calculator
(`source/calculator.cpp`).  The program converts an infix expression
string to Reverse Polish Notation (`rpn`) and evaluates the postfix
sequence (`eval`).

Modelling decisions, documented once here:

* IEEE doubles are modelled as exact rationals (`ℚ`).  Every value any
  claim touches is exactly representable, and on those inputs the C
  computation (`+ - * /`, `pow` with integer exponents) is exact, so the
  rational model agrees with the program bit-for-bit.  Where C produces
  infinities/NaNs (division by zero, `fmod` by zero, `pow` domain
  errors) or irrational values (`pow` with fractional exponents), the
  rational model returns a junk value; no claim depends on those values.
* Every `abort()` call and every failing `assert` in the source is
  modelled as a distinct `CalcError` value, so theorems can name the
  exact fatal condition.  The out-of-bounds vector access
  `evld[evld.size() - 2]` (reached when an operator is applied with
  fewer than two values, which in C++ is undefined behaviour, not a
  check) is likewise modelled as a distinguished error,
  `CalcError.stackUnderflow`.
* The `for` loop of `rpn()` is modelled by `rpnLoopF` with an explicit
  fuel argument; the canonical entry point `rpnRun` supplies the input
  length as fuel, which is always sufficient because every iteration
  consumes at least one input character (`rpnLoopF_fuel_irrel`).
* In `eval()`, the C++ loop `for (Part& p : expr)` caches the end
  iterator, and `expr.pop_back()` only shrinks the vector's size while
  the trivially-destructible elements stay in memory, so the loop
  visits every originally produced element in order; `evalLoop`
  iterates over the whole postfix list accordingly.
-/

namespace Calculator

/-- Fatal conditions of the program.  Each constructor corresponds to one
`abort()`/failed-`assert` site of the source (see comments at each use);
`outOfFuel` is an artefact of the fuel-indexed loop and is unreachable
from the canonical entry points. -/
inductive CalcError where
  | unknownChar      -- `type()`: `default: abort()` on a character outside the alphabet
  | twoPeriods       -- value constructor: second `.` in one literal
  | unexpectedSymbol -- `rpn()` main switch: `default: abort()` (e.g. a leading `.`)
  | badOperator      -- `prec()` / `associa()` / `applyOperator()`: `default: abort()`
  | unbalancedClose  -- `rpn()` close case: `assert(!oprs.empty())` fails
  | openAtEnd        -- `rpn()` final loop: `assert(... != Symbol::open)` fails
  | evalUnexpected   -- `eval()` switch: `default: abort()`
  | stackUnderflow   -- `eval()`: `evld[evld.size() - 2]` out of bounds (undefined behaviour in C++)
  | resultCount      -- `eval()`: `assert(evld.size() == 1)` fails
  | outOfFuel        -- model artefact, never produced with canonical fuel
deriving DecidableEq, Repr

instance {ε α : Type} [DecidableEq ε] [DecidableEq α] : DecidableEq (Except ε α) := fun a b =>
  match a, b with
  | .ok x, .ok y =>
    if h : x = y then .isTrue (by rw [h]) else .isFalse (fun hc => h (Except.ok.inj hc))
  | .error x, .error y =>
    if h : x = y then .isTrue (by rw [h]) else .isFalse (fun hc => h (Except.error.inj hc))
  | .ok _, .error _ => .isFalse (fun hc => Except.noConfusion hc)
  | .error _, .ok _ => .isFalse (fun hc => Except.noConfusion hc)

/-- `enum class SymbolType` of the source. -/
inductive SymbolType where
  | null
  | val
  | opr
  | open
  | close
  | period
  | blank
deriving DecidableEq, Repr

/-- `enum class Associativity` of the source. -/
inductive Associativity where
  | left
  | right
deriving DecidableEq, Repr

/-- `type(Symbol)`: classify one character; unknown characters hit
`default: abort()`. -/
def symType (c : Char) : Except CalcError SymbolType :=
  if c = '0' ∨ c = '1' ∨ c = '2' ∨ c = '3' ∨ c = '4' ∨
     c = '5' ∨ c = '6' ∨ c = '7' ∨ c = '8' ∨ c = '9' then .ok .val
  else if c = '+' ∨ c = '-' ∨ c = '*' ∨ c = '/' ∨ c = '^' ∨ c = '%' then .ok .opr
  else if c = '(' then .ok .open
  else if c = ')' then .ok .close
  else if c = '.' then .ok .period
  else if c = ' ' ∨ c = '\n' ∨ c = '\t' then .ok .blank
  else .error .unknownChar

/-- `prec(Symbol)`: operator precedence (lower value binds tighter);
non-operators hit `default: abort()`. -/
def prec (c : Char) : Except CalcError Nat :=
  if c = '^' then .ok 1
  else if c = '*' ∨ c = '/' ∨ c = '%' then .ok 2
  else if c = '+' ∨ c = '-' then .ok 3
  else .error .badOperator

/-- `associa(Symbol)`: operator associativity; non-operators hit
`default: abort()`. -/
def associa (c : Char) : Except CalcError Associativity :=
  if c = '^' then .ok .right
  else if c = '+' ∨ c = '-' ∨ c = '*' ∨ c = '/' ∨ c = '%' then .ok .left
  else .error .badOperator

/-- `struct Part`: a token holding the text span `[start, end)`.  A value
part stores its scanned span; an operator/open-paren part stores the
single character its one-char span consists of.  (Close-paren parts are
never constructed by `rpn()`.) -/
inductive Part where
  | num (span : List Char)
  | op (c : Char)
deriving DecidableEq, Repr

/-- The span `[start, end)` a `Part` covers in the input. -/
def Part.spanOf : Part → List Char
  | .num span => span
  | .op c => [c]

/-- The `symbol` data member: `*start`, the first character of the span.
Spans produced by the program are never empty; the default is junk. -/
def Part.symbol (p : Part) : Char :=
  p.spanOf.headD '\x00'

/-- Numeric value of a digit character (only applied to `'0'`..`'9'`). -/
def digitVal (c : Char) : ℕ :=
  c.toNat - 48

/-- Fractional value of a digit run after the decimal point. -/
def fracVal (ds : List Char) : ℚ :=
  ds.foldr (fun c acc => ((digitVal c : ℚ) + acc) / 10) 0

/-- Model of `std::from_chars(start, end, result)` on a span: longest
prefix of digits, then optionally `.` and a further digit run.  When no
digit leads the span, `from_chars` fails and the C++ `result` stays
uninitialized; the model returns a junk 0 (never reached for value
parts, whose spans start with a digit). -/
def parseSpan (cs : List Char) : ℚ :=
  let isDig : Char → Bool := fun c => decide (symType c = .ok .val)
  let intDigits := cs.takeWhile isDig
  let rest := cs.dropWhile isDig
  if intDigits.isEmpty then 0
  else
    let ip : ℚ := (intDigits.foldl (fun a c => 10 * a + digitVal c) 0 : ℕ)
    match rest with
    | '.' :: fs => ip + fracVal (fs.takeWhile isDig)
    | _ => ip

/-- `Part::computeVal()`. -/
def Part.computeVal (p : Part) : ℚ :=
  parseSpan p.spanOf

/-- Natural-number power on `ℚ` by repeated multiplication (the exact
value `pow` computes for non-negative integer exponents). -/
def npowQ (a : ℚ) : ℕ → ℚ
  | 0 => 1
  | n + 1 => a * npowQ a n

/-- Model of C `pow(a, b)`: exact for integer exponents; fractional
exponents produce real (generally irrational) values outside the
rational model and are mapped to junk 0 (no claim depends on them). -/
def powQ (a b : ℚ) : ℚ :=
  if b.den = 1 then
    match b.num with
    | .ofNat n => npowQ a n
    | .negSucc n => (npowQ a (n + 1))⁻¹
  else 0

/-- Truncation toward zero, as C floating-point-to-integer rounding in
`fmod`'s definition. -/
def truncQ (q : ℚ) : ℤ :=
  if 0 ≤ q then q.floor else q.ceil

/-- Model of C `fmod(a, b) = a - trunc(a/b) * b`; `fmod(a, 0)` is NaN in
C and junk here (no claim depends on it). -/
def fmodQ (a b : ℚ) : ℚ :=
  a - b * (truncQ (a / b) : ℚ)

/-- `applyOperator(a, b, opr)`: `a OPR b`; a non-operator symbol hits
`default: abort()`. -/
def applyOperator (a b : ℚ) (c : Char) : Except CalcError ℚ :=
  if c = '+' then .ok (a + b)
  else if c = '-' then .ok (a - b)
  else if c = '*' then .ok (a * b)
  else if c = '/' then .ok (a / b)
  else if c = '%' then .ok (fmodQ a b)
  else if c = '^' then .ok (powQ a b)
  else .error .badOperator

/-- The scanning loop of the `Part` value constructor, already past its
first character: consume a maximal run of digits and periods; a second
period aborts (`twoPeriods`); `type()` aborts on an unknown character.
Returns the consumed span and the unconsumed rest.  `seen` is the
negation of the source's `notFloatingPoint` flag. -/
def scanValAux : List Char → Bool → Except CalcError (List Char × List Char)
  | [], _ => .ok ([], [])
  | c :: cs, seen =>
    match symType c with
    | .error e => .error e
    | .ok .val =>
      match scanValAux cs seen with
      | .error e => .error e
      | .ok (sp, rest) => .ok (c :: sp, rest)
    | .ok .period =>
      if seen then .error .twoPeriods
      else
        match scanValAux cs true with
        | .error e => .error e
        | .ok (sp, rest) => .ok (c :: sp, rest)
    | .ok _ => .ok ([], c :: cs)

/-- The operator-case `while` loop of `rpn()`: pop stack tops that are
not `(` and either bind tighter than the incoming operator `sym`, or
bind equally tight while `sym` is left-associative.  The stack's head is
its top; popped parts are appended to the output. -/
def oprPopLoop (sym : Char) : List Part → List Part → Except CalcError (List Part × List Part)
  | [], expr => .ok ([], expr)
  | top :: rest, expr =>
    if top.symbol = '(' then .ok (top :: rest, expr)
    else
      match prec top.symbol with
      | .error e => .error e
      | .ok pt =>
        match prec sym with
        | .error e => .error e
        | .ok ps =>
          if pt < ps then oprPopLoop sym rest (expr ++ [top])
          else
            match associa sym with
            | .error e => .error e
            | .ok asc =>
              if asc = .left ∧ pt = ps then oprPopLoop sym rest (expr ++ [top])
              else .ok (top :: rest, expr)

/-- The close-paren-case `while` loop of `rpn()`: pop to the output until
an `(` is on top, then discard it; an emptied stack fails
`assert(!oprs.empty())` (`unbalancedClose`). -/
def closePopLoop : List Part → List Part → Except CalcError (List Part × List Part)
  | [], _ => .error .unbalancedClose
  | top :: rest, expr =>
    if top.symbol = '(' then .ok (rest, expr)
    else closePopLoop rest (expr ++ [top])

/-- The final `while` loop of `rpn()`: pop all remaining stack entries to
the output; an `(` entry fails `assert(... != Symbol::open)`
(`openAtEnd`). -/
def finalPop : List Part → List Part → Except CalcError (List Part)
  | [], expr => .ok expr
  | top :: rest, expr =>
    if top.symbol = '(' then .error .openAtEnd
    else finalPop rest (expr ++ [top])

/-- The main `for` loop of `rpn()`, fuel-indexed (one fuel per
iteration; the value case consumes the whole literal in one iteration,
exactly as the source advances `i` past it).  State: remaining input,
operator stack (head = top), output so far. -/
def rpnLoopF : ℕ → List Char → List Part → List Part →
    Except CalcError (List Part × List Part)
  | _, [], oprs, expr => .ok (expr, oprs)
  | 0, _ :: _, _, _ => .error .outOfFuel
  | f + 1, c :: cs, oprs, expr =>
    match symType c with
    | .error e => .error e
    | .ok .val =>
      -- `expr.emplace_back(Part(s, i, i))`: the value constructor
      -- re-examines `c` (a digit, leaving the period flag untouched)
      -- and then consumes the rest of the literal from `cs`.
      match scanValAux cs false with
      | .error e => .error e
      | .ok (sp, rest) => rpnLoopF f rest oprs (expr ++ [Part.num (c :: sp)])
    | .ok .opr =>
      match oprPopLoop c oprs expr with
      | .error e => .error e
      | .ok (oprs', expr') => rpnLoopF f cs (Part.op c :: oprs') expr'
    | .ok .open => rpnLoopF f cs (Part.op c :: oprs) expr
    | .ok .close =>
      match closePopLoop oprs expr with
      | .error e => .error e
      | .ok (oprs', expr') => rpnLoopF f cs oprs' expr'
    | .ok .blank => rpnLoopF f cs oprs expr
    | .ok .period => .error .unexpectedSymbol -- `rpn()` switch has no period case: `default: abort()`
    | .ok .null => .error .unexpectedSymbol   -- likewise unreachable via `type()`

/-- The `rpn()` main loop at its canonical fuel (the input length, which
is always sufficient: each iteration consumes at least one character). -/
def rpnRun (cs : List Char) (oprs expr : List Part) :
    Except CalcError (List Part × List Part) :=
  rpnLoopF cs.length cs oprs expr

/-- `rpn(s, expr)` on a character list: run the main loop from empty
stack and output, then drain the stack. -/
def rpnL (cs : List Char) : Except CalcError (List Part) :=
  match rpnRun cs [] [] with
  | .error e => .error e
  | .ok (expr, oprs) => finalPop oprs expr

/-- `rpn(s, expr)` on a string. -/
def rpn (s : String) : Except CalcError (List Part) :=
  rpnL s.toList

/-- The evaluation loop of `eval()` over the postfix sequence.  The
value stack `evld` has its top at the head.  An operator with fewer than
two stacked values makes the source read `evld[evld.size() - 2]` out of
bounds (undefined behaviour, no assert): modelled as
`stackUnderflow`. -/
def evalLoop : List Part → List ℚ → Except CalcError (List ℚ)
  | [], evld => .ok evld
  | p :: ps, evld =>
    match symType p.symbol with
    | .error e => .error e
    | .ok .val => evalLoop ps (p.computeVal :: evld)
    | .ok .opr =>
      match evld with
      | b :: a :: rest =>
        match applyOperator a b p.symbol with
        | .error e => .error e
        | .ok r => evalLoop ps (r :: rest)
      | _ => .error .stackUnderflow
    | .ok _ => .error .evalUnexpected -- `eval()` switch: `default: abort()`

/-- `eval(s)` on a character list: convert to postfix, fold the postfix
sequence, and require exactly one remaining value
(`assert(evld.size() == 1)`). -/
def evalL (cs : List Char) : Except CalcError ℚ :=
  match rpnL cs with
  | .error e => .error e
  | .ok expr =>
    match evalLoop expr [] with
    | .error e => .error e
    | .ok [v] => .ok v
    | .ok _ => .error .resultCount

/-- `eval(s)` on a string: the program's single entry point. -/
def eval (s : String) : Except CalcError ℚ :=
  evalL s.toList

/-- A postfix token the converter is allowed to emit: a Number (value
part, classified `val` through its first character) or an Operator.
Parenthesis markers (classified `open`/`close`) fail this. -/
def outTokenOk (p : Part) : Bool :=
  decide (symType p.symbol = .ok .val) || decide (symType p.symbol = .ok .opr)

/-- A part the operator stack may hold: an operator or the open-paren
marker. -/
def stkOk (p : Part) : Bool :=
  decide (symType p.symbol = .ok .opr) || decide (p.symbol = '(')

/-- Abstract stack-size simulation of postfix evaluation: a Number
pushes one value, an Operator consumes two and pushes one.  `sim parts m
= some n` means: starting from `m` stacked values, every operator finds
at least two values and `n` values remain at the end.  `sim parts 0 =
some 1` is well-formedness of a postfix sequence. -/
def sim : List Part → ℕ → Option ℕ
  | [], m => some m
  | p :: ps, m =>
    match symType p.symbol with
    | .ok .val => sim ps (m + 1)
    | .ok .opr =>
      match m with
      | m' + 2 => sim ps (m' + 1)
      | _ => none
    | _ => none

/-- A character a numeric literal may consist of: a digit or the decimal
point. -/
def isLitChar (c : Char) : Bool :=
  decide (symType c = .ok .val) || decide (c = '.')

/-- A span the scanner accepts as one complete numeric literal: starts
with a digit, contains only digits and periods, at most one period. -/
def isLiteral (cs : List Char) : Bool :=
  match cs with
  | [] => false
  | c :: _ =>
    decide (symType c = .ok .val) && cs.all isLitChar &&
      decide (cs.countP (fun x => decide (x = '.')) ≤ 1)

/-- The character (if any) following a literal terminates the scan: it
is a known symbol that is neither a digit nor a period. -/
def stopOk (rest : List Char) : Bool :=
  match rest with
  | [] => true
  | c :: _ =>
    match symType c with
    | .ok .val => false
    | .ok .period => false
    | .ok _ => true
    | .error _ => false

/-- Parenthesis balance check: `bal cs n = true` iff, starting with `n`
unmatched open parens, every `)` in `cs` finds an unmatched `(` and none
stays unmatched at the end.  Characters other than `(` and `)` are
ignored. -/
def bal : List Char → ℕ → Bool
  | [], n => n == 0
  | c :: cs, n =>
    if c = '(' then bal cs (n + 1)
    else if c = ')' then
      match n with
      | 0 => false
      | m + 1 => bal cs m
    else bal cs n

/-- Number of open-paren markers on an operator stack. -/
def openCount (l : List Part) : ℕ :=
  l.countP (fun p => decide (p.symbol = '('))

/-! ### Inversion lemmas for the classifier tables -/

theorem symType_opr_cases {c : Char} (h : symType c = .ok .opr) :
    c = '+' ∨ c = '-' ∨ c = '*' ∨ c = '/' ∨ c = '^' ∨ c = '%' := by
  unfold symType at h
  split_ifs at h <;> simp_all

theorem symType_open_eq {c : Char} (h : symType c = .ok .open) : c = '(' := by
  unfold symType at h
  split_ifs at h <;> simp_all

theorem symType_period_eq {c : Char} (h : symType c = .ok .period) : c = '.' := by
  unfold symType at h
  split_ifs at h <;> simp_all

theorem prec_ok_opr {c : Char} {n : ℕ} (h : prec c = .ok n) : symType c = .ok .opr := by
  unfold prec at h
  split_ifs at h with h1 h2 h3
  · subst h1; decide
  · rcases h2 with rfl | rfl | rfl <;> decide
  · rcases h3 with rfl | rfl <;> decide

theorem ne_open_of_symType {c : Char} {t : SymbolType}
    (h : symType c = .ok t) (ht : t ≠ .open) : c ≠ '(' := by
  intro hc
  subst hc
  have h2 : symType '(' = Except.ok SymbolType.open := by decide
  exact ht (Except.ok.inj (h.symm.trans h2))

theorem ne_close_of_symType {c : Char} {t : SymbolType}
    (h : symType c = .ok t) (ht : t ≠ .close) : c ≠ ')' := by
  intro hc
  subst hc
  have h2 : symType ')' = Except.ok SymbolType.close := by decide
  exact ht (Except.ok.inj (h.symm.trans h2))

theorem applyOperator_ok {c : Char} (h : symType c = .ok .opr) (a b : ℚ) :
    ∃ r, applyOperator a b c = .ok r := by
  rcases symType_opr_cases h with rfl | rfl | rfl | rfl | rfl | rfl <;> exact ⟨_, rfl⟩

/-! ### Scanner lemmas -/

/-- A successful scan splits the input into the consumed span and the
rest. -/
theorem scanValAux_append : ∀ (cs : List Char) (seen : Bool) {sp rest : List Char},
    scanValAux cs seen = .ok (sp, rest) → cs = sp ++ rest := by
  intro cs
  induction cs with
  | nil =>
    intro seen sp rest h
    simp only [scanValAux, Except.ok.injEq, Prod.mk.injEq] at h
    simp [← h.1, ← h.2]
  | cons c tl ih =>
    intro seen sp rest h
    simp only [scanValAux] at h
    rcases hst : symType c with e | t <;> rw [hst] at h
    · simp at h
    · cases t
      case val =>
        rcases hsc : scanValAux tl seen with e | ⟨sp', rest'⟩ <;> rw [hsc] at h
        · simp at h
        · simp only [Except.ok.injEq, Prod.mk.injEq] at h
          rw [← h.1, ← h.2]
          simp [ih seen hsc]
      case period =>
        rcases hseen : seen with _ | _ <;> rw [hseen] at h
        · simp only [if_neg Bool.false_ne_true] at h
          rcases hsc : scanValAux tl true with e | ⟨sp', rest'⟩ <;> rw [hsc] at h
          · simp at h
          · simp only [Except.ok.injEq, Prod.mk.injEq] at h
            rw [← h.1, ← h.2]
            simp [ih true hsc]
        · simp at h
      all_goals
        simp only [Except.ok.injEq, Prod.mk.injEq] at h
        rw [← h.1, ← h.2]
        simp

/-- Every character of a scanned span is a digit or a period. -/
theorem scanValAux_chars : ∀ (cs : List Char) (seen : Bool) {sp rest : List Char},
    scanValAux cs seen = .ok (sp, rest) →
    ∀ x ∈ sp, symType x = .ok .val ∨ symType x = .ok .period := by
  intro cs
  induction cs with
  | nil =>
    intro seen sp rest h
    simp only [scanValAux, Except.ok.injEq, Prod.mk.injEq] at h
    simp [← h.1]
  | cons c tl ih =>
    intro seen sp rest h
    simp only [scanValAux] at h
    rcases hst : symType c with e | t <;> rw [hst] at h
    · simp at h
    · cases t
      case val =>
        rcases hsc : scanValAux tl seen with e | ⟨sp', rest'⟩ <;> rw [hsc] at h
        · simp at h
        · simp only [Except.ok.injEq, Prod.mk.injEq] at h
          rw [← h.1]
          intro x hx
          rcases List.mem_cons.mp hx with rfl | hx'
          · exact Or.inl hst
          · exact ih seen hsc x hx'
      case period =>
        rcases hseen : seen with _ | _ <;> rw [hseen] at h
        · simp only [if_neg Bool.false_ne_true] at h
          rcases hsc : scanValAux tl true with e | ⟨sp', rest'⟩ <;> rw [hsc] at h
          · simp at h
          · simp only [Except.ok.injEq, Prod.mk.injEq] at h
            rw [← h.1]
            intro x hx
            rcases List.mem_cons.mp hx with rfl | hx'
            · exact Or.inr hst
            · exact ih true hsc x hx'
        · simp at h
      all_goals
        simp only [Except.ok.injEq, Prod.mk.injEq] at h
        rw [← h.1]
        simp

/-- Scanning a complete literal followed by a terminating character
consumes exactly the literal.  `seen` accounts for a period already
consumed. -/
theorem scanValAux_literal : ∀ (sp : List Char) (seen : Bool) (rest : List Char),
    (∀ x ∈ sp, isLitChar x = true) →
    sp.countP (fun x => decide (x = '.')) + (if seen then 1 else 0) ≤ 1 →
    stopOk rest = true →
    scanValAux (sp ++ rest) seen = .ok (sp, rest) := by
  intro sp
  induction sp with
  | nil =>
    intro seen rest _ _ hstop
    cases rest with
    | nil => simp [scanValAux]
    | cons r rs =>
      simp only [List.nil_append, scanValAux]
      simp only [stopOk] at hstop
      rcases hst : symType r with e | t
      · rw [hst] at hstop
        simp at hstop
      · cases t <;> simp_all
  | cons c tl ih =>
    intro seen rest hchars hcount hstop
    have hc := hchars c (List.mem_cons_self c tl)
    have htl : ∀ x ∈ tl, isLitChar x = true := fun x hx => hchars x (List.mem_cons_of_mem c hx)
    simp only [isLitChar, Bool.or_eq_true, decide_eq_true_eq] at hc
    rcases hc with hval | hper
    · have hcc : c ≠ '.' := by
        intro hcp
        subst hcp
        have h2 : symType '.' = Except.ok SymbolType.period := by decide
        simp [h2] at hval
      have heq : (c :: tl).countP (fun x => decide (x = '.')) =
          tl.countP (fun x => decide (x = '.')) := by
        simp [List.countP_cons, hcc]
      rw [heq] at hcount
      rw [List.cons_append]
      simp only [scanValAux, hval, ih seen rest htl hcount hstop]
    · subst hper
      have hsym : symType '.' = Except.ok SymbolType.period := by decide
      have hcp : ('.' :: tl).countP (fun x => decide (x = '.')) =
          tl.countP (fun x => decide (x = '.')) + 1 := by
        simp [List.countP_cons]
      rw [hcp] at hcount
      cases seen with
      | true => rw [if_pos rfl] at hcount; omega
      | false =>
        rw [if_neg Bool.false_ne_true] at hcount
        have hcount' : tl.countP (fun x => decide (x = '.')) + (if true then 1 else 0) ≤ 1 := by
          rw [if_pos rfl]
          omega
        rw [List.cons_append]
        simp only [scanValAux, hsym, Bool.false_eq_true, if_false,
          ih true rest htl hcount' hstop]

/-! ### Fuel irrelevance and single-step lemmas for the main loop -/

/-- Any fuel at least the input length gives the canonical run: the loop
consumes at least one character per iteration, so the fuel never runs
out. -/
theorem rpnLoopF_fuel_irrel : ∀ (f : ℕ) (cs : List Char) (oprs expr : List Part),
    cs.length ≤ f → rpnLoopF f cs oprs expr = rpnLoopF cs.length cs oprs expr := by
  intro f
  induction f using Nat.strong_induction_on with
  | _ f ih =>
    intro cs oprs expr hlen
    cases cs with
    | nil => simp [rpnLoopF]
    | cons c tl =>
      obtain ⟨g, rfl⟩ : ∃ g, f = g + 1 := by
        cases f with
        | zero => simp at hlen
        | succ g => exact ⟨g, rfl⟩
      have hlen' : tl.length ≤ g := by
        simp only [List.length_cons] at hlen
        omega
      simp only [rpnLoopF, List.length_cons]
      rcases hst : symType c with e | t
      · rfl
      · cases t
        · rfl
        · rcases hsc : scanValAux tl false with e | ⟨sp, rest⟩
          · rfl
          · have hr : rest.length ≤ tl.length := by
              rw [scanValAux_append tl false hsc]
              simp
            exact (ih g (by omega) rest oprs (expr ++ [Part.num (c :: sp)])
                (le_trans hr hlen')).trans
              (ih tl.length (by omega) rest oprs (expr ++ [Part.num (c :: sp)]) hr).symm
        · rcases hop : oprPopLoop c oprs expr with e | ⟨o', e'⟩
          · rfl
          · exact (ih g (by omega) tl (Part.op c :: o') e' hlen').trans
              (ih tl.length (by omega) tl (Part.op c :: o') e' le_rfl).symm
        · exact (ih g (by omega) tl (Part.op c :: oprs) expr hlen').trans
            (ih tl.length (by omega) tl (Part.op c :: oprs) expr le_rfl).symm
        · rcases hcl : closePopLoop oprs expr with e | ⟨o', e'⟩
          · rfl
          · exact (ih g (by omega) tl o' e' hlen').trans
              (ih tl.length (by omega) tl o' e' le_rfl).symm
        · rfl
        · exact (ih g (by omega) tl oprs expr hlen').trans
            (ih tl.length (by omega) tl oprs expr le_rfl).symm

/-- End of input: return the output and the remaining stack. -/
theorem rpnRun_nil (oprs expr : List Part) : rpnRun [] oprs expr = .ok (expr, oprs) :=
  rfl

/-- An unknown character aborts inside `type()`. -/
theorem rpnRun_err {c : Char} {e : CalcError} (h : symType c = .error e)
    (cs : List Char) (oprs expr : List Part) :
    rpnRun (c :: cs) oprs expr = .error e := by
  simp only [rpnRun, List.length_cons, rpnLoopF, h]

/-- A digit starts a literal scan; the scanned span becomes one Number
token and the loop resumes after it. -/
theorem rpnRun_val {c : Char} {cs sp rest : List Char} (h : symType c = .ok .val)
    (hsc : scanValAux cs false = .ok (sp, rest)) (oprs expr : List Part) :
    rpnRun (c :: cs) oprs expr = rpnRun rest oprs (expr ++ [Part.num (c :: sp)]) := by
  have hr : rest.length ≤ cs.length := by
    rw [scanValAux_append cs false hsc]
    simp
  simp only [rpnRun, List.length_cons, rpnLoopF, h, hsc]
  exact rpnLoopF_fuel_irrel cs.length rest _ _ hr

/-- A failing literal scan aborts the whole conversion. -/
theorem rpnRun_val_err {c : Char} {cs : List Char} {e : CalcError}
    (h : symType c = .ok .val) (hsc : scanValAux cs false = .error e)
    (oprs expr : List Part) :
    rpnRun (c :: cs) oprs expr = .error e := by
  simp only [rpnRun, List.length_cons, rpnLoopF, h, hsc]

/-- An operator first pops by precedence/associativity, then is pushed. -/
theorem rpnRun_opr {c : Char} {cs : List Char} {oprs expr o' e' : List Part}
    (h : symType c = .ok .opr) (hop : oprPopLoop c oprs expr = .ok (o', e')) :
    rpnRun (c :: cs) oprs expr = rpnRun cs (Part.op c :: o') e' := by
  simp only [rpnRun, List.length_cons, rpnLoopF, h, hop]

/-- A failing pop loop aborts the whole conversion. -/
theorem rpnRun_opr_err {c : Char} {cs : List Char} {oprs expr : List Part} {e : CalcError}
    (h : symType c = .ok .opr) (hop : oprPopLoop c oprs expr = .error e) :
    rpnRun (c :: cs) oprs expr = .error e := by
  simp only [rpnRun, List.length_cons, rpnLoopF, h, hop]

/-- An open paren is pushed as an opaque marker. -/
theorem rpnRun_open {c : Char} (h : symType c = .ok .open)
    (cs : List Char) (oprs expr : List Part) :
    rpnRun (c :: cs) oprs expr = rpnRun cs (Part.op c :: oprs) expr := by
  simp only [rpnRun, List.length_cons, rpnLoopF, h]

/-- A close paren pops to the matching open marker and discards it. -/
theorem rpnRun_close {c : Char} {cs : List Char} {oprs expr o' e' : List Part}
    (h : symType c = .ok .close) (hcl : closePopLoop oprs expr = .ok (o', e')) :
    rpnRun (c :: cs) oprs expr = rpnRun cs o' e' := by
  simp only [rpnRun, List.length_cons, rpnLoopF, h, hcl]

/-- A close paren with no matching open marker aborts. -/
theorem rpnRun_close_err {c : Char} {cs : List Char} {oprs expr : List Part} {e : CalcError}
    (h : symType c = .ok .close) (hcl : closePopLoop oprs expr = .error e) :
    rpnRun (c :: cs) oprs expr = .error e := by
  simp only [rpnRun, List.length_cons, rpnLoopF, h, hcl]

/-- Whitespace is skipped. -/
theorem rpnRun_blank {c : Char} (h : symType c = .ok .blank)
    (cs : List Char) (oprs expr : List Part) :
    rpnRun (c :: cs) oprs expr = rpnRun cs oprs expr := by
  simp only [rpnRun, List.length_cons, rpnLoopF, h]

/-- A period in the main scan hits the switch's `default: abort()`. -/
theorem rpnRun_period {c : Char} (h : symType c = .ok .period)
    (cs : List Char) (oprs expr : List Part) :
    rpnRun (c :: cs) oprs expr = .error .unexpectedSymbol := by
  simp only [rpnRun, List.length_cons, rpnLoopF, h]

/-- The (unreachable) `null` classification likewise hits the default
branch. -/
theorem rpnRun_null {c : Char} (h : symType c = .ok .null)
    (cs : List Char) (oprs expr : List Part) :
    rpnRun (c :: cs) oprs expr = .error .unexpectedSymbol := by
  simp only [rpnRun, List.length_cons, rpnLoopF, h]

/-- Scanning a complete literal at the head of the input emits exactly
one Number token holding the literal. -/
theorem rpnRun_literal {a rest : List Char} (ha : isLiteral a = true)
    (hstop : stopOk rest = true) (oprs expr : List Part) :
    rpnRun (a ++ rest) oprs expr = rpnRun rest oprs (expr ++ [Part.num a]) := by
  cases a with
  | nil => simp [isLiteral] at ha
  | cons c tl =>
    simp only [isLiteral, Bool.and_eq_true, decide_eq_true_eq, List.all_cons,
      List.all_eq_true, Bool.and_eq_true] at ha
    obtain ⟨⟨hval, _, htl⟩, hcount⟩ := ha
    have hcc : c ≠ '.' := by
      intro hcp
      subst hcp
      have h2 : symType '.' = Except.ok SymbolType.period := by decide
      simp [h2] at hval
    have hcount' : tl.countP (fun x => decide (x = '.')) + (if false then 1 else 0) ≤ 1 := by
      have heq : (c :: tl).countP (fun x => decide (x = '.')) =
          tl.countP (fun x => decide (x = '.')) := by
        simp [List.countP_cons, hcc]
      rw [heq] at hcount
      simpa using hcount
    have hsc : scanValAux (tl ++ rest) false = .ok (tl, rest) :=
      scanValAux_literal tl false rest (fun x hx => htl x hx) hcount' hstop
    rw [List.cons_append]
    exact rpnRun_val hval hsc oprs expr

/-! ### Token invariants of the converter -/

theorem oprPopLoop_preserve : ∀ (oprs expr : List Part) {o' e' : List Part} (sym : Char),
    oprPopLoop sym oprs expr = .ok (o', e') →
    oprs.all stkOk = true → expr.all outTokenOk = true →
    o'.all stkOk = true ∧ e'.all outTokenOk = true := by
  intro oprs
  induction oprs with
  | nil =>
    intro expr o' e' sym h _ he
    simp only [oprPopLoop, Except.ok.injEq, Prod.mk.injEq] at h
    rw [← h.1, ← h.2]
    exact ⟨rfl, he⟩
  | cons top rest ih =>
    intro expr o' e' sym h ho he
    simp only [List.all_cons, Bool.and_eq_true] at ho
    obtain ⟨htop, hrest⟩ := ho
    simp only [oprPopLoop] at h
    by_cases hsym : top.symbol = '('
    · rw [if_pos hsym] at h
      simp only [Except.ok.injEq, Prod.mk.injEq] at h
      rw [← h.1, ← h.2]
      exact ⟨by simp [List.all_cons, htop, hrest], he⟩
    · rw [if_neg hsym] at h
      rcases hp : prec top.symbol with e1 | pt
      · rw [hp] at h
        simp at h
      · simp only [hp] at h
        rcases hps : prec sym with e2 | ps
        · rw [hps] at h
          simp at h
        · simp only [hps] at h
          have htop' : outTokenOk top = true := by
            simp only [outTokenOk, Bool.or_eq_true, decide_eq_true_eq]
            exact Or.inr (prec_ok_opr hp)
          by_cases hlt : pt < ps
          · rw [if_pos hlt] at h
            exact ih (expr ++ [top]) sym h hrest (by simp [List.all_append, he, htop'])
          · rw [if_neg hlt] at h
            rcases has : associa sym with e3 | asc
            · rw [has] at h
              simp at h
            · simp only [has] at h
              by_cases hand : asc = Associativity.left ∧ pt = ps
              · rw [if_pos hand] at h
                exact ih (expr ++ [top]) sym h hrest (by simp [List.all_append, he, htop'])
              · rw [if_neg hand] at h
                simp only [Except.ok.injEq, Prod.mk.injEq] at h
                rw [← h.1, ← h.2]
                exact ⟨by simp [List.all_cons, htop, hrest], he⟩

theorem closePopLoop_preserve : ∀ (oprs expr : List Part) {o' e' : List Part},
    closePopLoop oprs expr = .ok (o', e') →
    oprs.all stkOk = true → expr.all outTokenOk = true →
    o'.all stkOk = true ∧ e'.all outTokenOk = true := by
  intro oprs
  induction oprs with
  | nil =>
    intro expr o' e' h _ _
    simp [closePopLoop] at h
  | cons top rest ih =>
    intro expr o' e' h ho he
    simp only [List.all_cons, Bool.and_eq_true] at ho
    obtain ⟨htop, hrest⟩ := ho
    simp only [closePopLoop] at h
    by_cases hsym : top.symbol = '('
    · rw [if_pos hsym] at h
      simp only [Except.ok.injEq, Prod.mk.injEq] at h
      rw [← h.1, ← h.2]
      exact ⟨hrest, he⟩
    · rw [if_neg hsym] at h
      have htop' : outTokenOk top = true := by
        simp only [stkOk, Bool.or_eq_true, decide_eq_true_eq] at htop
        rcases htop with hopr | hpar
        · simp only [outTokenOk, Bool.or_eq_true, decide_eq_true_eq]
          exact Or.inr hopr
        · exact absurd hpar hsym
      exact ih (expr ++ [top]) h hrest (by simp [List.all_append, he, htop'])

theorem finalPop_preserve : ∀ (oprs expr : List Part) {out : List Part},
    finalPop oprs expr = .ok out →
    oprs.all stkOk = true → expr.all outTokenOk = true →
    out.all outTokenOk = true := by
  intro oprs
  induction oprs with
  | nil =>
    intro expr out h _ he
    simp only [finalPop, Except.ok.injEq] at h
    rw [← h]
    exact he
  | cons top rest ih =>
    intro expr out h ho he
    simp only [List.all_cons, Bool.and_eq_true] at ho
    obtain ⟨htop, hrest⟩ := ho
    simp only [finalPop] at h
    by_cases hsym : top.symbol = '('
    · rw [if_pos hsym] at h
      simp at h
    · rw [if_neg hsym] at h
      have htop' : outTokenOk top = true := by
        simp only [stkOk, Bool.or_eq_true, decide_eq_true_eq] at htop
        rcases htop with hopr | hpar
        · simp only [outTokenOk, Bool.or_eq_true, decide_eq_true_eq]
          exact Or.inr hopr
        · exact absurd hpar hsym
      exact ih (expr ++ [top]) h hrest (by simp [List.all_append, he, htop'])

/-- Main invariant of the conversion loop: from a stack of
operator/open-paren parts and an output of Number/Operator tokens, a
successful run produces an output of Number/Operator tokens and a stack
of operator/open-paren parts. -/
theorem rpnRun_inv : ∀ (n : ℕ) (cs : List Char), cs.length ≤ n →
    ∀ (oprs expr : List Part) {E O : List Part},
    rpnRun cs oprs expr = .ok (E, O) →
    oprs.all stkOk = true → expr.all outTokenOk = true →
    E.all outTokenOk = true ∧ O.all stkOk = true := by
  intro n
  induction n with
  | zero =>
    intro cs hlen oprs expr E O hrun ho he
    have : cs = [] := List.length_eq_zero.mp (Nat.le_zero.mp hlen)
    subst this
    rw [rpnRun_nil] at hrun
    simp only [Except.ok.injEq, Prod.mk.injEq] at hrun
    rw [← hrun.1, ← hrun.2]
    exact ⟨he, ho⟩
  | succ n ih =>
    intro cs hlen oprs expr E O hrun ho he
    cases cs with
    | nil =>
      rw [rpnRun_nil] at hrun
      simp only [Except.ok.injEq, Prod.mk.injEq] at hrun
      rw [← hrun.1, ← hrun.2]
      exact ⟨he, ho⟩
    | cons c tl =>
      have hlen' : tl.length ≤ n := by
        simp only [List.length_cons] at hlen
        omega
      rcases hst : symType c with e | t
      · rw [rpnRun_err hst tl oprs expr] at hrun
        simp at hrun
      · cases t
        · rw [rpnRun_null hst tl oprs expr] at hrun
          simp at hrun
        · rcases hsc : scanValAux tl false with e | ⟨sp, rest⟩
          · rw [rpnRun_val_err hst hsc oprs expr] at hrun
            simp at hrun
          · rw [rpnRun_val hst hsc oprs expr] at hrun
            have hr : rest.length ≤ n := by
              have h1 := scanValAux_append tl false hsc
              have : rest.length ≤ tl.length := by
                rw [h1]
                simp
              omega
            refine ih rest hr oprs (expr ++ [Part.num (c :: sp)]) hrun ho ?_
            have hnum : outTokenOk (Part.num (c :: sp)) = true := by
              simp [outTokenOk, Part.symbol, Part.spanOf, hst]
            simp [List.all_append, he, hnum]
        · rcases hop : oprPopLoop c oprs expr with e | ⟨o', e'⟩
          · rw [rpnRun_opr_err hst hop] at hrun
            simp at hrun
          · rw [rpnRun_opr hst hop] at hrun
            obtain ⟨ho', he'⟩ := oprPopLoop_preserve oprs expr c hop ho he
            refine ih tl hlen' (Part.op c :: o') e' hrun ?_ he'
            have hc : stkOk (Part.op c) = true := by
              simp [stkOk, Part.symbol, Part.spanOf, hst]
            simp [List.all_cons, hc, ho']
        · rw [rpnRun_open hst tl oprs expr] at hrun
          refine ih tl hlen' (Part.op c :: oprs) expr hrun ?_ he
          have hc : stkOk (Part.op c) = true := by
            have := symType_open_eq hst
            subst this
            simp [stkOk, Part.symbol, Part.spanOf]
          simp [List.all_cons, hc, ho]
        · rcases hcl : closePopLoop oprs expr with e | ⟨o', e'⟩
          · rw [rpnRun_close_err hst hcl] at hrun
            simp at hrun
          · rw [rpnRun_close hst hcl] at hrun
            obtain ⟨ho', he'⟩ := closePopLoop_preserve oprs expr hcl ho he
            exact ih tl hlen' o' e' hrun ho' he'
        · rw [rpnRun_period hst tl oprs expr] at hrun
          simp at hrun
        · rw [rpnRun_blank hst tl oprs expr] at hrun
          exact ih tl hlen' oprs expr hrun ho he

/-- Every token in the output of a successful conversion is a Number or
an Operator. -/
theorem rpnL_tokens {cs : List Char} {expr : List Part} (h : rpnL cs = .ok expr) :
    expr.all outTokenOk = true := by
  simp only [rpnL] at h
  rcases hrun : rpnRun cs [] [] with e | ⟨E, O⟩
  · rw [hrun] at h
    simp at h
  · rw [hrun] at h
    simp only [] at h
    obtain ⟨hE, hO⟩ := rpnRun_inv cs.length cs le_rfl [] [] hrun rfl rfl
    exact finalPop_preserve O E h hO hE

/-! ### Postfix evaluation of a well-formed sequence -/

/-- If the stack-size simulation accepts a token sequence, evaluation
succeeds and produces exactly the predicted number of stacked values. -/
theorem evalLoop_of_sim : ∀ (parts : List Part) (evld : List ℚ) (n : ℕ),
    parts.all outTokenOk = true → sim parts evld.length = some n →
    ∃ evld', evalLoop parts evld = .ok evld' ∧ evld'.length = n := by
  intro parts
  induction parts with
  | nil =>
    intro evld n _ hsim
    simp only [sim, Option.some.injEq] at hsim
    exact ⟨evld, rfl, hsim⟩
  | cons p ps ih =>
    intro evld n hall hsim
    simp only [List.all_cons, Bool.and_eq_true] at hall
    obtain ⟨hp, hps⟩ := hall
    simp only [outTokenOk, Bool.or_eq_true, decide_eq_true_eq] at hp
    rcases hp with hval | hopr
    · simp only [sim, hval] at hsim
      simp only [evalLoop, hval]
      exact ih (p.computeVal :: evld) n hps (by simpa using hsim)
    · simp only [sim, hopr] at hsim
      cases evld with
      | nil => simp at hsim
      | cons b t =>
        cases t with
        | nil => simp at hsim
        | cons a rest =>
          have hsim' : sim ps (rest.length + 1) = some n := by
            simpa using hsim
          obtain ⟨r, hr⟩ := applyOperator_ok hopr a b
          simp only [evalLoop, hopr, hr]
          exact ih (r :: rest) n hps (by simpa using hsim')

/-! ### Parenthesis accounting -/

theorem symType_close_eq {c : Char} (h : symType c = .ok .close) : c = ')' := by
  unfold symType at h
  split_ifs at h <;> simp_all

theorem oprPopLoop_openCount : ∀ (oprs expr : List Part) {o' e' : List Part} (sym : Char),
    oprPopLoop sym oprs expr = .ok (o', e') → openCount o' = openCount oprs := by
  intro oprs
  induction oprs with
  | nil =>
    intro expr o' e' sym h
    simp only [oprPopLoop, Except.ok.injEq, Prod.mk.injEq] at h
    rw [← h.1]
  | cons top rest ih =>
    intro expr o' e' sym h
    simp only [oprPopLoop] at h
    by_cases hsym : top.symbol = '('
    · rw [if_pos hsym] at h
      simp only [Except.ok.injEq, Prod.mk.injEq] at h
      rw [← h.1]
    · rw [if_neg hsym] at h
      have hcount : openCount (top :: rest) = openCount rest := by
        simp [openCount, List.countP_cons, hsym]
      rcases hp : prec top.symbol with e1 | pt
      · rw [hp] at h
        simp at h
      · simp only [hp] at h
        rcases hps : prec sym with e2 | ps
        · rw [hps] at h
          simp at h
        · simp only [hps] at h
          by_cases hlt : pt < ps
          · rw [if_pos hlt] at h
            rw [ih (expr ++ [top]) sym h, hcount]
          · rw [if_neg hlt] at h
            rcases has : associa sym with e3 | asc
            · rw [has] at h
              simp at h
            · simp only [has] at h
              by_cases hand : asc = Associativity.left ∧ pt = ps
              · rw [if_pos hand] at h
                rw [ih (expr ++ [top]) sym h, hcount]
              · rw [if_neg hand] at h
                simp only [Except.ok.injEq, Prod.mk.injEq] at h
                rw [← h.1]

theorem closePopLoop_openCount : ∀ (oprs expr : List Part) {o' e' : List Part},
    closePopLoop oprs expr = .ok (o', e') → openCount oprs = openCount o' + 1 := by
  intro oprs
  induction oprs with
  | nil =>
    intro expr o' e' h
    simp [closePopLoop] at h
  | cons top rest ih =>
    intro expr o' e' h
    simp only [closePopLoop] at h
    by_cases hsym : top.symbol = '('
    · rw [if_pos hsym] at h
      simp only [Except.ok.injEq, Prod.mk.injEq] at h
      rw [← h.1]
      simp [openCount, List.countP_cons, hsym]
    · rw [if_neg hsym] at h
      have hcount : openCount (top :: rest) = openCount rest := by
        simp [openCount, List.countP_cons, hsym]
      rw [hcount, ih (expr ++ [top]) h]

theorem finalPop_openCount : ∀ (oprs expr : List Part) {out : List Part},
    finalPop oprs expr = .ok out → openCount oprs = 0 := by
  intro oprs
  induction oprs with
  | nil => intro _ _ _; rfl
  | cons top rest ih =>
    intro expr out h
    simp only [finalPop] at h
    by_cases hsym : top.symbol = '('
    · rw [if_pos hsym] at h
      simp at h
    · rw [if_neg hsym] at h
      have hcount : openCount (top :: rest) = openCount rest := by
        simp [openCount, List.countP_cons, hsym]
      rw [hcount]
      exact ih (expr ++ [top]) h

theorem bal_skip : ∀ (sp r : List Char) (n : ℕ),
    (∀ x ∈ sp, x ≠ '(' ∧ x ≠ ')') → bal (sp ++ r) n = bal r n := by
  intro sp
  induction sp with
  | nil => intro r n _; rfl
  | cons x tl ih =>
    intro r n hx
    have h1 := hx x (List.mem_cons_self x tl)
    rw [List.cons_append]
    simp only [bal, if_neg h1.1, if_neg h1.2]
    exact ih r n (fun y hy => hx y (List.mem_cons_of_mem x hy))

/-- A successful conversion run that leaves no open marker on the stack
can only happen on balanced input (relative to the markers already on
the stack). -/
theorem rpnRun_bal : ∀ (k : ℕ) (cs : List Char), cs.length ≤ k →
    ∀ (oprs expr : List Part) {E O : List Part},
    rpnRun cs oprs expr = .ok (E, O) → openCount O = 0 →
    bal cs (openCount oprs) = true := by
  intro k
  induction k with
  | zero =>
    intro cs hlen oprs expr E O hrun h0
    have hnil : cs = [] := List.length_eq_zero.mp (Nat.le_zero.mp hlen)
    subst hnil
    rw [rpnRun_nil] at hrun
    simp only [Except.ok.injEq, Prod.mk.injEq] at hrun
    simp [bal, hrun.2, h0]
  | succ k ih =>
    intro cs hlen oprs expr E O hrun h0
    cases cs with
    | nil =>
      rw [rpnRun_nil] at hrun
      simp only [Except.ok.injEq, Prod.mk.injEq] at hrun
      simp [bal, hrun.2, h0]
    | cons c tl =>
      have hlen' : tl.length ≤ k := by
        simp only [List.length_cons] at hlen
        omega
      rcases hst : symType c with e | t
      · rw [rpnRun_err hst tl oprs expr] at hrun
        simp at hrun
      · cases t
        · rw [rpnRun_null hst tl oprs expr] at hrun
          simp at hrun
        · rcases hsc : scanValAux tl false with e | ⟨sp, rest⟩
          · rw [rpnRun_val_err hst hsc oprs expr] at hrun
            simp at hrun
          · rw [rpnRun_val hst hsc oprs expr] at hrun
            have hcnp : c ≠ '(' ∧ c ≠ ')' :=
              ⟨ne_open_of_symType hst (by decide), ne_close_of_symType hst (by decide)⟩
            have htl_split := scanValAux_append tl false hsc
            have hsp : ∀ x ∈ sp, x ≠ '(' ∧ x ≠ ')' := by
              intro x hx
              rcases scanValAux_chars tl false hsc x hx with hv | hper
              · exact ⟨ne_open_of_symType hv (by decide), ne_close_of_symType hv (by decide)⟩
              · exact ⟨ne_open_of_symType hper (by decide), ne_close_of_symType hper (by decide)⟩
            have hr : rest.length ≤ k := by
              have : rest.length ≤ tl.length := by
                rw [htl_split]
                simp
              omega
            have hrest := ih rest hr oprs (expr ++ [Part.num (c :: sp)]) hrun h0
            simp only [bal, if_neg hcnp.1, if_neg hcnp.2]
            rw [htl_split, bal_skip sp rest (openCount oprs) hsp]
            exact hrest
        · rcases hop : oprPopLoop c oprs expr with e | ⟨o', e'⟩
          · rw [rpnRun_opr_err hst hop] at hrun
            simp at hrun
          · rw [rpnRun_opr hst hop] at hrun
            have hcnp : c ≠ '(' ∧ c ≠ ')' :=
              ⟨ne_open_of_symType hst (by decide), ne_close_of_symType hst (by decide)⟩
            have hoc : openCount (Part.op c :: o') = openCount oprs := by
              rw [← oprPopLoop_openCount oprs expr c hop]
              simp [openCount, List.countP_cons, Part.symbol, Part.spanOf, hcnp.1]
            have hbal := ih tl hlen' (Part.op c :: o') e' hrun h0
            rw [hoc] at hbal
            simp only [bal, if_neg hcnp.1, if_neg hcnp.2]
            exact hbal
        · have hco := symType_open_eq hst
          subst hco
          rw [rpnRun_open hst tl oprs expr] at hrun
          have hoc : openCount (Part.op '(' :: oprs) = openCount oprs + 1 := by
            simp [openCount, List.countP_cons, Part.symbol, Part.spanOf]
          have hbal := ih tl hlen' (Part.op '(' :: oprs) expr hrun h0
          rw [hoc] at hbal
          simp only [bal, if_pos rfl]
          exact hbal
        · have hcc := symType_close_eq hst
          subst hcc
          rcases hcl : closePopLoop oprs expr with e | ⟨o', e'⟩
          · rw [rpnRun_close_err hst hcl] at hrun
            simp at hrun
          · rw [rpnRun_close hst hcl] at hrun
            have hco := closePopLoop_openCount oprs expr hcl
            have hbal := ih tl hlen' o' e' hrun h0
            simp only [bal, if_neg (by decide : ¬(')' = '(')), if_pos rfl]
            rw [hco]
            simpa using hbal
        · rw [rpnRun_period hst tl oprs expr] at hrun
          simp at hrun
        · rw [rpnRun_blank hst tl oprs expr] at hrun
          have hcnp : c ≠ '(' ∧ c ≠ ')' :=
            ⟨ne_open_of_symType hst (by decide), ne_close_of_symType hst (by decide)⟩
          have hbal := ih tl hlen' oprs expr hrun h0
          simp only [bal, if_neg hcnp.1, if_neg hcnp.2]
          exact hbal

/-- A successful evaluation implies balanced parentheses. -/
theorem evalL_balanced {cs : List Char} {v : ℚ} (h : evalL cs = .ok v) :
    bal cs 0 = true := by
  simp only [evalL, rpnL] at h
  rcases hrun : rpnRun cs [] [] with e | ⟨E, O⟩
  · rw [hrun] at h
    simp at h
  · rw [hrun] at h
    dsimp only at h
    rcases hfp : finalPop O E with e | expr
    · rw [hfp] at h
      simp at h
    · exact rpnRun_bal cs.length cs le_rfl [] [] hrun (finalPop_openCount O E hfp)

/-- Whitespace-only input leaves the loop state untouched. -/
theorem rpnRun_blanks : ∀ (cs : List Char), (∀ c ∈ cs, symType c = .ok .blank) →
    ∀ oprs expr, rpnRun cs oprs expr = .ok (expr, oprs) := by
  intro cs
  induction cs with
  | nil => intro _ oprs expr; exact rpnRun_nil oprs expr
  | cons c tl ih =>
    intro hall oprs expr
    rw [rpnRun_blank (hall c (List.mem_cons_self c tl)) tl oprs expr]
    exact ih (fun x hx => hall x (List.mem_cons_of_mem c hx)) oprs expr

/-- A complete literal at the very end of the input: the scan consumes
it and the loop finishes. -/
theorem rpnRun_literal_nil {a : List Char} (ha : isLiteral a = true)
    (oprs expr : List Part) :
    rpnRun a oprs expr = .ok (expr ++ [Part.num a], oprs) := by
  have h := rpnRun_literal ha (show stopOk ([] : List Char) = true from rfl) oprs expr
  rw [List.append_nil] at h
  rw [h, rpnRun_nil]

/-! ### Claim theorems -/

unseal Rat.add Rat.mul Rat.inv Rat.sub in
/-- C1: grouping at equal precedence is associativity-driven — the
right-associative `^` groups right-to-left, so `2^3^2` evaluates like
`2^(3^2)` to 512 (and not to 64, the value of `(2^3)^2`), while the
left-associative `/` groups left-to-right, so `8/4/2` evaluates like
`(8/4)/2` to 1 (and not to 4, the value of `8/(4/2)`). -/
theorem claim1_associativity_grouping :
    eval "2^3^2" = .ok 512 ∧ eval "2^(3^2)" = .ok 512 ∧
    eval "(2^3)^2" = .ok 64 ∧ eval "2^3^2" ≠ .ok 64 ∧
    eval "8/4/2" = .ok 1 ∧ eval "(8/4)/2" = .ok 1 ∧
    eval "8/(4/2)" = .ok 4 ∧ eval "8/4/2" ≠ .ok 4 := by
  decide

/-- C2: multiplication binds tighter than addition — for any three
numeric literals `a`, `b`, `c`, the expressions `a + b * c` and
`a + (b * c)` evaluate identically (they convert to the same postfix
sequence). -/
theorem claim2_mul_binds_tighter_than_add :
    ∀ a b c : List Char, isLiteral a = true → isLiteral b = true → isLiteral c = true →
    evalL (a ++ (' ' :: '+' :: ' ' :: (b ++ (' ' :: '*' :: ' ' :: c)))) =
    evalL (a ++ (' ' :: '+' :: ' ' :: ('(' :: (b ++ (' ' :: '*' :: ' ' :: (c ++ [')'])))))) := by
  intro a b c ha hb hc
  have hblank : symType ' ' = .ok .blank := by decide
  have hplus : symType '+' = .ok .opr := by decide
  have hmul : symType '*' = .ok .opr := by decide
  have hopen : symType '(' = .ok .open := by decide
  have hclose : symType ')' = .ok .close := by decide
  have hstop_sp : ∀ x : List Char, stopOk (' ' :: x) = true := fun x => rfl
  have hstop_cl : ∀ x : List Char, stopOk (')' :: x) = true := fun x => rfl
  have hstop_nil : stopOk ([] : List Char) = true := rfl
  have h1 : rpnL (a ++ (' ' :: '+' :: ' ' :: (b ++ (' ' :: '*' :: ' ' :: c)))) =
      .ok [Part.num a, Part.num b, Part.num c, Part.op '*', Part.op '+'] := by
    simp only [rpnL]
    rw [rpnRun_literal ha (hstop_sp _) [] []]
    simp only [List.nil_append]
    rw [rpnRun_blank hblank]
    rw [rpnRun_opr hplus
      (show oprPopLoop '+' [] [Part.num a] = .ok ([], [Part.num a]) from rfl)]
    rw [rpnRun_blank hblank]
    rw [rpnRun_literal hb (hstop_sp _) [Part.op '+'] [Part.num a]]
    simp only [List.singleton_append, List.cons_append, List.nil_append]
    rw [rpnRun_blank hblank]
    rw [rpnRun_opr hmul
      (show oprPopLoop '*' [Part.op '+'] [Part.num a, Part.num b] =
        .ok ([Part.op '+'], [Part.num a, Part.num b]) from rfl)]
    rw [rpnRun_blank hblank]
    rw [rpnRun_literal_nil hc [Part.op '*', Part.op '+'] [Part.num a, Part.num b]]
    dsimp only
    simp [finalPop, Part.symbol, Part.spanOf]
  have h2 : rpnL (a ++ (' ' :: '+' :: ' ' :: ('(' ::
        (b ++ (' ' :: '*' :: ' ' :: (c ++ [')'])))))) =
      .ok [Part.num a, Part.num b, Part.num c, Part.op '*', Part.op '+'] := by
    simp only [rpnL]
    rw [rpnRun_literal ha (hstop_sp _) [] []]
    simp only [List.nil_append]
    rw [rpnRun_blank hblank]
    rw [rpnRun_opr hplus
      (show oprPopLoop '+' [] [Part.num a] = .ok ([], [Part.num a]) from rfl)]
    rw [rpnRun_blank hblank]
    rw [rpnRun_open hopen]
    rw [rpnRun_literal hb (hstop_sp _) [Part.op '(', Part.op '+'] [Part.num a]]
    simp only [List.singleton_append, List.cons_append, List.nil_append]
    rw [rpnRun_blank hblank]
    rw [rpnRun_opr hmul
      (show oprPopLoop '*' [Part.op '(', Part.op '+'] [Part.num a, Part.num b] =
        .ok ([Part.op '(', Part.op '+'], [Part.num a, Part.num b]) from rfl)]
    rw [rpnRun_blank hblank]
    rw [rpnRun_literal hc (hstop_cl _) [Part.op '*', Part.op '(', Part.op '+']
      [Part.num a, Part.num b]]
    simp only [List.cons_append, List.nil_append]
    rw [rpnRun_close hclose
      (show closePopLoop [Part.op '*', Part.op '(', Part.op '+']
          [Part.num a, Part.num b, Part.num c] =
        .ok ([Part.op '+'], [Part.num a, Part.num b, Part.num c] ++ [Part.op '*']) from rfl)]
    simp only [List.cons_append, List.nil_append, List.append_assoc]
    rw [rpnRun_nil]
    dsimp only
    simp [finalPop, Part.symbol, Part.spanOf]
  simp only [evalL, h1, h2]

/-- C2 witness at the literals 1, 2, 3. -/
theorem claim2_mul_binds_tighter_than_add_witness :
    evalL (['1'] ++ (' ' :: '+' :: ' ' :: (['2'] ++ (' ' :: '*' :: ' ' :: ['3'])))) =
    evalL (['1'] ++ (' ' :: '+' :: ' ' :: ('(' ::
      (['2'] ++ (' ' :: '*' :: ' ' :: (['3'] ++ [')'])))))) :=
  claim2_mul_binds_tighter_than_add ['1'] ['2'] ['3'] (by decide) (by decide) (by decide)

/-- C3 counterexample: the input `1+` converts to postfix without any
fatal error, yet evaluating its postfix sequence applies `+` with only
one value on the stack — conversion success alone does not rule out the
malformed-postfix conditions. -/
theorem claim3_counterexample :
    rpn "1+" = .ok [Part.num ['1'], Part.op '+'] ∧
    eval "1+" = .error .stackUnderflow := by
  decide

/-- C3 (amended): if the input converts without fatal error AND the
resulting postfix sequence is well-formed in the stack-counting sense
(`sim expr 0 = some 1`: every operator finds two values and exactly one
value remains), then evaluation succeeds with a single result. -/
theorem claim3_amended_wellformed_postfix_evaluates :
    ∀ (s : String) (expr : List Part), rpn s = .ok expr → sim expr 0 = some 1 →
    ∃ v, eval s = .ok v := by
  intro s expr hrpn hsim
  have hall : expr.all outTokenOk = true := rpnL_tokens hrpn
  obtain ⟨evld', hev, hlen⟩ := evalLoop_of_sim expr [] 1 hall hsim
  obtain ⟨v, rfl⟩ : ∃ v, evld' = [v] := by
    cases evld' with
    | nil => simp at hlen
    | cons x t =>
      cases t with
      | nil => exact ⟨x, rfl⟩
      | cons y u => simp at hlen
  refine ⟨v, ?_⟩
  show evalL s.toList = .ok v
  simp only [evalL]
  rw [show rpnL s.toList = .ok expr from hrpn]
  dsimp only
  rw [hev]

/-- C3 (amended) witness at the input `1+2`. -/
theorem claim3_amended_witness : ∃ v, eval "1+2" = .ok v :=
  claim3_amended_wellformed_postfix_evaluates "1+2"
    [Part.num ['1'], Part.num ['2'], Part.op '+'] (by decide) (by decide)

/-- C4: evaluating `1+` reaches the `+` token with a single value on
the stack.  In the model this is the distinguished `stackUnderflow`
outcome (no numeric result); in the C++ source this very state performs
the unchecked out-of-bounds access `evld[evld.size() - 2]` — undefined
behaviour, not the detected fatal assertion the claim asserts. -/
theorem claim4_underflow_input :
    eval "1+" = .error .stackUnderflow ∧ eval "+" = .error .stackUnderflow := by
  decide

/-- C5: any input whose parentheses are unbalanced (some `)` without an
unmatched `(` before it, or an unmatched `(` at end of input — exactly
`bal … = false`) evaluates to a fatal error and no value; at the claim's
two examples the fatal condition is the failed close-paren pop
(`unbalancedClose`) and the open-marker-at-end assert (`openAtEnd`). -/
theorem claim5_unbalanced_parens :
    (∀ s : String, bal s.toList 0 = false → ∃ e, eval s = .error e) ∧
    eval "1+2)" = .error .unbalancedClose ∧
    eval "(1+2" = .error .openAtEnd := by
  refine ⟨?_, by decide, by decide⟩
  intro s hbal
  rcases h : eval s with e | v
  · exact ⟨e, rfl⟩
  · have hb : bal s.toList 0 = true := evalL_balanced h
    rw [hb] at hbal
    cases hbal

/-- C5 witness at the unbalanced input `)(`. -/
theorem claim5_unbalanced_parens_witness : ∃ e, eval ")(" = .error e :=
  claim5_unbalanced_parens.1 ")(" (by decide)

unseal Rat.add Rat.mul Rat.inv Rat.sub in
/-- C6: the decimal literal `3.5` evaluates to exactly 3.5 = 7/2, and a
literal with two decimal points (`1.2.3`) is a fatal error with no
result. -/
theorem claim6_decimal_literals :
    eval "3.5" = .ok (7 / 2) ∧ eval "1.2.3" = .error .twoPeriods := by
  decide

/-- C7 counterexample: on the input `.5`, whose literal begins with a
decimal point, the main scan does NOT form a Number token — it hits the
switch's fatal `default` branch (the `rpn()` switch has no case for the
`period` classification), so conversion and evaluation abort. -/
theorem claim7_counterexample :
    rpn ".5" = .error .unexpectedSymbol ∧
    eval ".5" = .error .unexpectedSymbol := by
  decide

/-- C7 (amended): whenever the main scan encounters a digit, it consumes
a maximal run of digits and decimal points into a single Number token
(a complete literal followed by a non-literal character is consumed
whole); but an input whose literal begins with a decimal point (such as
`.5`) instead hits the scanner's fatal default branch. -/
theorem claim7_amended_digit_starts_literal :
    (∀ (a rest : List Char) (oprs expr : List Part),
      isLiteral a = true → stopOk rest = true →
      rpnRun (a ++ rest) oprs expr = rpnRun rest oprs (expr ++ [Part.num a])) ∧
    rpn ".5" = .error .unexpectedSymbol :=
  ⟨fun a rest oprs expr ha hstop => rpnRun_literal ha hstop oprs expr, by decide⟩

/-- C7 (amended) witness: the literal `12.5` followed by `+3` is
consumed as one Number token. -/
theorem claim7_amended_witness :
    rpnRun (['1', '2', '.', '5'] ++ ['+', '3']) [] [] =
      rpnRun ['+', '3'] [] ([] ++ [Part.num ['1', '2', '.', '5']]) :=
  claim7_amended_digit_starts_literal.1 ['1', '2', '.', '5'] ['+', '3'] [] []
    (by decide) (by decide)

/-- C8: the postfix sequence produced by a successful conversion
contains only Number and Operator tokens — parenthesis markers (the
`open`/`close` classifications) never appear in it. -/
theorem claim8_output_only_numbers_and_operators :
    ∀ (s : String) (expr : List Part), rpn s = .ok expr → expr.all outTokenOk = true :=
  fun _ _ h => rpnL_tokens h

/-- C8 witness at the input `(1+2)*3`. -/
theorem claim8_output_only_numbers_and_operators_witness :
    [Part.num ['1'], Part.num ['2'], Part.op '+',
      Part.num ['3'], Part.op '*'].all outTokenOk = true :=
  claim8_output_only_numbers_and_operators "(1+2)*3"
    [Part.num ['1'], Part.num ['2'], Part.op '+', Part.num ['3'], Part.op '*']
    (by decide)

/-- C9: the empty input, and every input consisting only of whitespace
characters, evaluates to the fatal `resultCount` condition (the final
one-value check fails on an empty value stack) and yields no numeric
result. -/
theorem claim9_empty_and_blank_inputs :
    eval "" = .error .resultCount ∧
    ∀ s : String, (∀ c ∈ s.toList, symType c = .ok .blank) →
      eval s = .error .resultCount := by
  refine ⟨by decide, ?_⟩
  intro s hall
  show evalL s.toList = .error .resultCount
  simp only [evalL, rpnL]
  rw [rpnRun_blanks s.toList hall [] []]
  rfl

/-- C9 witness at a whitespace-only input (space, tab, newline). -/
theorem claim9_empty_and_blank_inputs_witness : eval " \t\n" = .error .resultCount :=
  claim9_empty_and_blank_inputs.2 " \t\n" (by decide)

unseal Rat.add Rat.mul Rat.inv Rat.sub in
/-- C10: a literal with a trailing decimal point (`3.` in `3.+1`) is
accepted as one Number token, its value is the integer part, and the
whole input evaluates to 4. -/
theorem claim10_trailing_period_literal :
    rpn "3.+1" = .ok [Part.num ['3', '.'], Part.num ['1'], Part.op '+'] ∧
    Part.computeVal (Part.num ['3', '.']) = 3 ∧
    eval "3.+1" = .ok 4 := by
  decide

end Calculator
